import Mathlib

/-! # minmath: rounding kernel and trigonometric kernel

A shallow embedding of `src/src/fnumber.cpp`, `src/src/ftrig.cpp` and
`src/include/constants.hpp`.

Modelling conventions.

* A `float` is modelled by the rational number it denotes and, in the namespace
  `mmath`, every arithmetic operation is exact. Every value of the model is
  finite.
* `MMATH_ASSERT_FINITE_NORMALIZED_FLOAT` is a debug assertion on the argument.
  The functions of the namespace `mmath` are those of a build that compiles
  the assertion out; the namespace `mmath.checked` gives `abs`, `min`, `max` and
  `close` in a build that keeps it, where a failed assertion stops the program.
* Where the rounding of a single-precision sum changes the result, the
  namespace `mmath.f32` gives `ceil`, `frac` and `round` with the sum rounded
  to the nearest float.
* A conversion from a floating value to an integer type discards the fractional
  part. It is undefined when the truncated value is not representable in the
  target type; the model returns `none` there, so the functions that go through
  such a conversion return an `Option`.
* Functions declared `-> bool` return a `Bool`; the implicit conversions between
  `float` and `bool` are the explicit `toBool` and `ofBool`.
* `std::bit_cast` between `float` and `uint32_t` is the IEEE-754 single
  encoding: `floatOfBits` reads a pattern, `bitsOfFloat` writes one. The steps
  of `tan` that work on the pattern are functions of a natural number.
-/

namespace mmath

/-! ## Primitive conversions -/

/-- Integer part of a floating value, fractional part discarded (truncation
toward zero), as every floating-to-integer conversion of the language does. -/
def truncToInt (a : ℚ) : ℤ := Int.tdiv a.num a.den

/-- The conversion `static_cast<uint64_t>(a)`: defined when the truncated value
lies in `[0, 2^64)`. -/
def toUInt64 (a : ℚ) : Option ℕ :=
  if 0 ≤ truncToInt a ∧ truncToInt a < 2 ^ 64 then some (truncToInt a).toNat else none

/-- The conversion `static_cast<int64_t>(a)`: defined when the truncated value
lies in `[-2^63, 2^63)`. -/
def toInt64 (a : ℚ) : Option ℤ :=
  if -(2 ^ 63) ≤ truncToInt a ∧ truncToInt a < 2 ^ 63 then some (truncToInt a) else none

/-- The conversion of a floating value to `int8_t`: defined when the truncated
value lies in `[-2^7, 2^7)`. -/
def toInt8 (a : ℚ) : Option ℤ :=
  if -(2 ^ 7) ≤ truncToInt a ∧ truncToInt a < 2 ^ 7 then some (truncToInt a) else none

/-- The expression `std::bit_cast<uint32_t>(x) >> 31u`: bit 31 of the encoding of
`x`, which is set exactly for the negative values of the model. -/
def signBit (x : ℚ) : ℕ := if x < 0 then 1 else 0

/-- Conversion of a `float` to `bool`: every value other than zero is `true`. -/
def toBool (r : ℚ) : Bool := decide (r ≠ 0)

/-- Conversion of a `bool` to `float`: `false` is 0 and `true` is 1. -/
def ofBool (b : Bool) : ℚ := if b then 1 else 0

/-- The constant `pi` of `constants.hpp`: a `float` initialised from the decimal
expansion of the number pi, that is the nearest 32-bit value `13176795 * 2^-22`. -/
def pi : ℚ := 13176795 / 4194304

/-! ## fnumber.cpp -/

/-- The function `abs`: `x > 0.f ? x : -x`. -/
def abs (x : ℚ) : ℚ := if x > 0 then x else -x

/-- The function `floor`: the sign taken from bit 31 times the magnitude cast
through `uint64_t`. -/
def floor (x : ℚ) : Option ℚ :=
  let x_sign : ℤ := -2 * (signBit x : ℤ) + 1
  (toUInt64 (abs x)).map fun (n : ℕ) => (x_sign : ℚ) * (n : ℚ)

/-- The function `trunc`: `floor(x)`. -/
def trunc (x : ℚ) : Option ℚ := floor x

/-- The function `ceil`: `floor(x) + 1.f`, the sum taken exactly (it is exact in
single precision when `|floor x| < 2^24`); `f32.ceil` rounds it. -/
def ceil (x : ℚ) : Option ℚ := (floor x).map fun (f : ℚ) => f + 1

/-- The function `frac`: `abs(x) - trunc(x)`. -/
def frac (x : ℚ) : Option ℚ := (trunc x).map fun (t : ℚ) => abs x - t

/-- The function `round`: `frac(x) > 0x1p-1f ? ceil(x) : trunc(x)`. -/
def round (x : ℚ) : Option ℚ :=
  (frac x).bind fun (f : ℚ) => if f > 1 / 2 then ceil x else trunc x

/-- The function `mod`: `x - y * static_cast<int64_t>(x / y)`. A zero divisor
makes the quotient infinite or not a number, which the cast does not accept. -/
def mod (x y : ℚ) : Option ℚ :=
  if y = 0 then none else (toInt64 (x / y)).map fun (q : ℤ) => x - y * (q : ℚ)

/-- The function `min`: computes `x > y ? y : x` as a `float` and returns it
through the declared return type `bool`. -/
def min (x y : ℚ) : Bool := toBool (if x > y then y else x)

/-- The function `max`: stores `min(y, x)` in a `float` and returns it through
the declared return type `bool`. -/
def max (x y : ℚ) : Bool := toBool (ofBool (min y x))

/-- The function `close`:
`abs(x - y) <= max(rel_tol * max(abs(x), abs(y)), abs_tol)`, in the build that
compiles the assertions out; `checked.close` keeps them. -/
def close (x y rel_tol abs_tol : ℚ) : Bool :=
  decide (abs (x - y) ≤ ofBool (max (rel_tol * ofBool (max (abs x) (abs y))) abs_tol))

/-! ## ftrig.cpp -/

/-- The subexpression `q & 1` of `sin`, whose left operand is a floating
quotient: the lowest bit of the integer part of `q` in two-complement, that is
its parity. -/
def bitAndOne (q : ℚ) : ℚ := ((truncToInt q % 2 : ℤ) : ℚ)

/-- The local `sf` of `sin`: `-2 * (floor(floor((x/pi) & 1)) + 1) + 3`, stored
in an `int8_t`. -/
def sin_sf (x : ℚ) : Option ℤ :=
  (floor (bitAndOne (x / pi))).bind fun (a : ℚ) =>
    (floor a).bind fun (b : ℚ) => toInt8 (-2 * (b + 1) + 3)

/-- The local `sa` of `sin`: `-2 * (floor(floor((-2*x/pi) & 1)) + 1) + 3`,
stored in an `int8_t`. -/
def sin_sa (x : ℚ) : Option ℤ :=
  (floor (bitAndOne (-2 * x / pi))).bind fun (a : ℚ) =>
    (floor a).bind fun (b : ℚ) => toInt8 (-2 * (b + 1) + 3)

/-- The local `k` of `sin`: `floor((x + 0.5*pi)/pi)`. -/
def sin_k (x : ℚ) : Option ℚ := floor ((x + (1 / 2) * pi) / pi)

/-- The local `arg` of `sin`: `sa * (k * pi - x)`. -/
def sin_arg (x : ℚ) : Option ℚ :=
  (sin_sa x).bind fun (sa : ℤ) => (sin_k x).map fun (k : ℚ) => (sa : ℚ) * (k * pi - x)

/-- The polynomial of `sin`, with the decimal coefficients of the source. It is
stated over any field, so that it can be read at a rational and at a real
argument. -/
def sin_poly {K : Type} [Field K] (arg : K) : K :=
  (28797 / 1000000) * arg * arg * arg * arg
    - (204340696022 / 1000000000000) * arg * arg * arg
    + (213730075289 / 10000000000000) * arg * arg
    + (995626 / 1000000) * arg

/-- The function `sin`: `sf` times the polynomial at `arg`. -/
def sin (x : ℚ) : Option ℚ :=
  (sin_sf x).bind fun (sf : ℤ) => (sin_arg x).map fun (arg : ℚ) => (sf : ℚ) * sin_poly arg

/-- The function `cos`: `sin(pi/2 - x)`. -/
def cos (x : ℚ) : Option ℚ := sin (pi / 2 - x)

/-! ## Bit patterns of 32-bit floats -/

/-- The value of a 32-bit pattern read as an IEEE-754 single (`std::bit_cast<float>`):
sign in bit 31, biased exponent in bits 23 to 30, fraction in bits 0 to 22.
The patterns with exponent field 255 (infinities and NaN) have no value. -/
def floatOfBits (b : ℕ) : Option ℚ :=
  let s : ℕ := b >>> 31 % 2
  let e : ℕ := b >>> 23 % 256
  let m : ℕ := b % 2 ^ 23
  if e = 255 then none
  else
    let mag : ℚ :=
      if e = 0 then (m : ℚ) * 2 ^ (-149 : ℤ) else ((2 ^ 23 + m : ℕ) : ℚ) * 2 ^ ((e : ℤ) - 150)
    some (if s = 1 then -mag else mag)

/-- The 32-bit pattern of a value (`std::bit_cast<uint32_t>`). A value that is
not representable takes the pattern of its magnitude truncated to 24
significant bits, a magnitude of `2^128` or more the pattern of infinity. -/
def bitsOfFloat (q : ℚ) : ℕ :=
  let a : ℚ := if q < 0 then -q else q
  let e : ℤ := Int.log 2 a
  let body : ℕ :=
    if a = 0 then 0
    else if e < -126 then ⌊a * 2 ^ 149⌋₊
    else if 127 < e then 0x7f800000
    else (e + 127).toNat * 2 ^ 23 + (⌊a / 2 ^ e * 2 ^ 23⌋₊ - 2 ^ 23)
  signBit q * 2 ^ 31 + body

/-- Modelled from the spec: the precondition checked by the macro
`MMATH_ASSERT_FINITE_NORMALIZED_FLOAT`, whose definition is in a header that is
not part of the sources. A float is finite and normalized when its exponent
field is neither at its minimum (zero and subnormals) nor at its maximum
(infinities and NaN). -/
def isFiniteNormalized (b : ℕ) : Bool :=
  decide (1 ≤ b >>> 23 % 256 ∧ b >>> 23 % 256 ≤ 254)

/-! ## ftrig.cpp: the tangent -/

/-- The constant `pihalved` of `tan`: `pi/2.f`. -/
def pihalved : ℚ := pi / 2

/-- The constant `twooverpi` of `tan`: `1.f/pihalved`. -/
def twooverpi : ℚ := 1 / pihalved

/-- The table `c` of `tan`, with the decimal coefficients of the source. -/
def tan_c : Fin 4 → ℚ
  | 0 => 58873 / 100000
  | 1 => -(222615 / 1000000)
  | 2 => 907791 / 10000000
  | 3 => -(148931 / 10000000)

/-- The reduced argument of `tan`, `((x+pihalved)%pi)-pihalved`, the remainder
being the library function `mod` as the comment of the source says. -/
def tan_in (x : ℚ) : Option ℚ :=
  (mod (x + pihalved) pi).map fun (m : ℚ) => m - pihalved

/-- The local `in_sign` of `tan`, from the pattern `b` of the reduced argument:
`-2*static_cast<int32_t>(b >> 31u)`. -/
def tan_in_sign (b : ℕ) : ℤ := -2 * ((b >>> 31 : ℕ) : ℤ)

/-- The sign cancelling step of `tan` on the pattern `b` of the reduced
argument: `b & 0x7ffffff`. -/
def tan_cancel_sign (b : ℕ) : ℕ := b &&& 0x7ffffff

/-- The function `tan`. A reduced argument equal to `pihalved` after the sign
cancelling step makes the quotient infinite, which the model does not
represent. -/
def tan (x : ℚ) : Option ℚ :=
  (tan_in x).bind fun (i : ℚ) =>
    let in_sign : ℤ := tan_in_sign (bitsOfFloat i)
    (floatOfBits (tan_cancel_sign (bitsOfFloat i))).bind fun (j : ℚ) =>
      if j - pihalved = 0 then none
      else some ((in_sign : ℚ) * (1 / (j - pihalved) - twooverpi
        + tan_c 3 * j * j * j * j + tan_c 2 * j * j * j + tan_c 1 * j * j + tan_c 0 * j))

/-! ## Single-precision rounding of `ceil`, `frac` and `round` -/

/-- Rounding of a rational to the nearest integer, a tie going to the even
integer. -/
def roundHalfEven (n : ℚ) : ℤ :=
  let f : ℤ := ⌊n⌋
  let d : ℚ := n - f
  if d < 1 / 2 then f else if 1 / 2 < d then f + 1 else if f % 2 = 0 then f else f + 1

/-- Rounding of an exact result to the nearest 32-bit float, ties to the even
significand, as a single-precision addition or subtraction delivers it: the
significand has 24 bits, the exponent is at least -126, and a result that
rounds to `2^128` or more overflows and has no value here. -/
def roundToFloat (q : ℚ) : Option ℚ :=
  let e : ℤ := Max.max (Int.log 2 |q|) (-126)
  let u : ℚ := 2 ^ (e - 23)
  let r : ℚ := (roundHalfEven (q / u) : ℚ) * u
  if |r| < 2 ^ 128 then some r else none

namespace f32

/-- The function `ceil` with the sum `floor(x)+1.f` rounded to a float. -/
def ceil (x : ℚ) : Option ℚ := (floor x).bind fun (f : ℚ) => roundToFloat (f + 1)

/-- The function `frac` with the difference `abs(x) - trunc(x)` rounded to a
float. -/
def frac (x : ℚ) : Option ℚ := (trunc x).bind fun (t : ℚ) => roundToFloat (abs x - t)

/-- The function `round`, `frac(x) > 0x1p-1f ? ceil(x) : trunc(x)`, over the
rounded `frac` and `ceil`. -/
def round (x : ℚ) : Option ℚ :=
  (frac x).bind fun (f : ℚ) => if f > 1 / 2 then ceil x else trunc x

end f32

/-! ## The checked build of `close` -/

/-- Modelled from the spec: the condition tested by the macro
`MMATH_ASSERT_FINITE_NORMALIZED_FLOAT`, whose definition is in a header that is
not part of the sources, on a value: its magnitude lies in the range of the
normalized floats, from `2^-126` up to `2^128` excluded. Zero and the
subnormal magnitudes fail it. -/
def isNormalizedValue (x : ℚ) : Bool :=
  decide ((2 : ℚ) ^ (-126 : ℤ) ≤ |x| ∧ |x| < 2 ^ 128)

namespace checked

/-- The statement `MMATH_ASSERT_FINITE_NORMALIZED_FLOAT(x)` in a build that
keeps the assertions: the program stops, modelled as `none`, when the condition
fails. -/
def assertFiniteNormalized (x : ℚ) : Option Unit :=
  if isNormalizedValue x then some () else none

/-- The function `abs` with its assertion. -/
def abs (x : ℚ) : Option ℚ :=
  (assertFiniteNormalized x).map fun (_ : Unit) => mmath.abs x

/-- The function `min` with its two assertions. -/
def min (x y : ℚ) : Option Bool :=
  (assertFiniteNormalized x).bind fun (_ : Unit) =>
    (assertFiniteNormalized y).map fun (_ : Unit) => mmath.min x y

/-- The function `max` with its two assertions, both on `x` as in the source. -/
def max (x y : ℚ) : Option Bool :=
  (assertFiniteNormalized x).bind fun (_ : Unit) =>
    (assertFiniteNormalized x).bind fun (_ : Unit) =>
      (min y x).map fun (b : Bool) => toBool (ofBool b)

/-- The function `close` with its two assertions and those of the functions it
calls. -/
def close (x y rel_tol abs_tol : ℚ) : Option Bool :=
  (assertFiniteNormalized x).bind fun (_ : Unit) =>
    (assertFiniteNormalized y).bind fun (_ : Unit) =>
      (abs (x - y)).bind fun (d : ℚ) =>
        (abs x).bind fun (ax : ℚ) =>
          (abs y).bind fun (ay : ℚ) =>
            (max ax ay).bind fun (m : Bool) =>
              (max (rel_tol * ofBool m) abs_tol).map fun (r : Bool) =>
                decide (d ≤ ofBool r)

end checked

end mmath

/-! ## Auxiliary facts about truncation -/

theorem truncToInt_of_nonneg {a : ℚ} (h : 0 ≤ a) : mmath.truncToInt a = ⌊a⌋ := by
  unfold mmath.truncToInt
  rw [Int.tdiv_eq_ediv (Rat.num_nonneg.mpr h) (Int.ofNat_nonneg _), Rat.floor_def]

theorem truncToInt_neg (a : ℚ) : mmath.truncToInt (-a) = -mmath.truncToInt a := by
  unfold mmath.truncToInt
  rw [Rat.neg_num, Rat.neg_den, Int.neg_tdiv]

theorem truncToInt_of_nonpos {a : ℚ} (h : a ≤ 0) : mmath.truncToInt a = ⌈a⌉ := by
  have h1 : mmath.truncToInt a = -mmath.truncToInt (-a) := by
    rw [truncToInt_neg, neg_neg]
  rw [h1, truncToInt_of_nonneg (neg_nonneg.mpr h), Int.floor_neg, neg_neg]

theorem truncToInt_nonneg {a : ℚ} (h : 0 ≤ a) : 0 ≤ mmath.truncToInt a := by
  rw [truncToInt_of_nonneg h]
  exact Int.floor_nonneg.mpr h

theorem truncToInt_le {a : ℚ} (h : 0 ≤ a) : (mmath.truncToInt a : ℚ) ≤ a := by
  rw [truncToInt_of_nonneg h]
  exact Int.floor_le a

theorem lt_truncToInt_add_one {a : ℚ} (h : 0 ≤ a) : a < (mmath.truncToInt a : ℚ) + 1 := by
  rw [truncToInt_of_nonneg h]
  exact Int.lt_floor_add_one a

theorem mmath_abs_eq (x : ℚ) : mmath.abs x = |x| := by
  unfold mmath.abs
  split_ifs with h
  · exact (abs_of_pos h).symm
  · exact (abs_of_nonpos (not_lt.mp h)).symm

theorem toUInt64_of_lt {a : ℚ} (h0 : 0 ≤ a) (h : a < 2 ^ 64) :
    mmath.toUInt64 a = some (mmath.truncToInt a).toNat := by
  unfold mmath.toUInt64
  have h1 : 0 ≤ mmath.truncToInt a := truncToInt_nonneg h0
  have h2 : mmath.truncToInt a < 2 ^ 64 := by
    have h3 : (mmath.truncToInt a : ℚ) < ((2 ^ 64 : ℤ) : ℚ) := by
      push_cast
      exact lt_of_le_of_lt (truncToInt_le h0) h
    exact_mod_cast h3
  rw [if_pos ⟨h1, h2⟩]

/-- On its defined range the function `floor` returns the integer part of its
argument, truncated toward zero. -/
theorem floor_eq_truncToInt (x : ℚ) (hx : |x| < 2 ^ 64) :
    mmath.floor x = some (mmath.truncToInt x : ℚ) := by
  unfold mmath.floor
  rw [mmath_abs_eq, toUInt64_of_lt (abs_nonneg x) hx]
  have hcast : (((mmath.truncToInt |x|).toNat : ℕ) : ℚ) = (mmath.truncToInt |x| : ℚ) := by
    have h := Int.toNat_of_nonneg (truncToInt_nonneg (abs_nonneg x))
    exact_mod_cast congrArg (fun z : ℤ => (z : ℚ)) h
  simp only [Option.map_some', hcast, mmath.signBit]
  by_cases hneg : x < 0
  · rw [if_pos hneg, abs_of_neg hneg, truncToInt_neg]
    push_cast
    ring_nf
  · rw [if_neg hneg, abs_of_nonneg (not_lt.mp hneg)]
    push_cast
    ring_nf

theorem toInt64_of_lt {a : ℚ} (h : |a| < 2 ^ 63) :
    mmath.toInt64 a = some (mmath.truncToInt a) := by
  unfold mmath.toInt64
  have key : ∀ b : ℚ, 0 ≤ b → b < 2 ^ 63 → mmath.truncToInt b < 2 ^ 63 := by
    intro b hb0 hb
    have h3 : (mmath.truncToInt b : ℚ) < ((2 ^ 63 : ℤ) : ℚ) := by
      push_cast
      exact lt_of_le_of_lt (truncToInt_le hb0) hb
    exact_mod_cast h3
  rcases le_total 0 a with h0 | h0
  · have h1 := truncToInt_nonneg h0
    have h2 := key a h0 (by rwa [abs_of_nonneg h0] at h)
    rw [if_pos ⟨by linarith, h2⟩]
  · have h1 := truncToInt_nonneg (neg_nonneg.mpr h0)
    have h2 := key (-a) (neg_nonneg.mpr h0) (by rwa [abs_of_nonpos h0] at h)
    rw [truncToInt_neg] at h1 h2
    rw [if_pos ⟨by linarith, by linarith⟩]

/-! ## The rounding kernel -/

/-- C1: for every `x` with `|x| < 2^64`, `trunc` and `floor` return the same
value, an integer `n`; for `x >= 0` it is the largest integer at most `x`, for
`x < 0` the smallest integer at least `x`, and it is zero or has the sign of
`x`: both truncate toward zero. -/
theorem floor_trunc_toward_zero (x : ℚ) (hx : |x| < 2 ^ 64) :
    mmath.trunc x = mmath.floor x ∧
    ∃ n : ℤ, mmath.floor x = some (n : ℚ) ∧
      (0 ≤ x → (n : ℚ) ≤ x ∧ ∀ m : ℤ, (m : ℚ) ≤ x → m ≤ n) ∧
      (x < 0 → x ≤ (n : ℚ) ∧ ∀ m : ℤ, x ≤ (m : ℚ) → n ≤ m) ∧
      (n = 0 ∨ (0 < n ∧ 0 < x) ∨ (n < 0 ∧ x < 0)) := by
  refine ⟨rfl, mmath.truncToInt x, floor_eq_truncToInt x hx, ?_, ?_, ?_⟩
  · intro h0
    rw [truncToInt_of_nonneg h0]
    exact ⟨Int.floor_le x, fun m hm => Int.le_floor.mpr hm⟩
  · intro h0
    rw [truncToInt_of_nonpos h0.le]
    exact ⟨Int.le_ceil x, fun m hm => Int.ceil_le.mpr hm⟩
  · rcases lt_trichotomy x 0 with h | h | h
    · have hn : mmath.truncToInt x ≤ 0 := by
        rw [truncToInt_of_nonpos h.le]
        exact Int.ceil_le.mpr (by exact_mod_cast h.le)
      rcases hn.lt_or_eq with h1 | h1
      · exact Or.inr (Or.inr ⟨h1, h⟩)
      · exact Or.inl h1
    · left
      rw [h, truncToInt_of_nonneg le_rfl]
      exact Int.floor_zero
    · have hn : 0 ≤ mmath.truncToInt x := truncToInt_nonneg h.le
      rcases hn.lt_or_eq with h1 | h1
      · exact Or.inr (Or.inl ⟨h1, h⟩)
      · exact Or.inl h1.symm

/-- The hypothesis of `floor_trunc_toward_zero` holds at `x = -37/10`. -/
theorem floor_trunc_toward_zero_witness :
    |(-37 / 10 : ℚ)| < 2 ^ 64 ∧
    (mmath.trunc (-37 / 10) = mmath.floor (-37 / 10) ∧
    ∃ n : ℤ, mmath.floor (-37 / 10) = some (n : ℚ) ∧
      ((0 : ℚ) ≤ -37 / 10 → (n : ℚ) ≤ -37 / 10 ∧ ∀ m : ℤ, (m : ℚ) ≤ -37 / 10 → m ≤ n) ∧
      ((-37 / 10 : ℚ) < 0 → (-37 / 10 : ℚ) ≤ (n : ℚ) ∧ ∀ m : ℤ, (-37 / 10 : ℚ) ≤ (m : ℚ) → n ≤ m) ∧
      (n = 0 ∨ (0 < n ∧ (0 : ℚ) < -37 / 10) ∨ (n < 0 ∧ (-37 / 10 : ℚ) < 0))) :=
  ⟨by norm_num [abs_lt], floor_trunc_toward_zero (-37 / 10) (by norm_num [abs_lt])⟩

/-- C3: for every `x` with `0 <= x < 2^64`, `round x` is `trunc x + 1` when
`x - trunc x > 1/2` and `trunc x` otherwise (an exact half goes down); the
result is within `1/2` of `x` and no integer is nearer to `x`. -/
theorem round_nonneg_nearest (x : ℚ) (h0 : 0 ≤ x) (hx : x < 2 ^ 64) :
    ∃ t r : ℤ, mmath.trunc x = some (t : ℚ) ∧ mmath.round x = some (r : ℚ) ∧
      (1 / 2 < x - t → r = t + 1) ∧ (x - t ≤ 1 / 2 → r = t) ∧
      |(r : ℚ) - x| ≤ 1 / 2 ∧ ∀ m : ℤ, |(r : ℚ) - x| ≤ |(m : ℚ) - x| := by
  have hax : |x| < 2 ^ 64 := by rwa [abs_of_nonneg h0]
  have hfl := floor_eq_truncToInt x hax
  have hle := truncToInt_le h0
  have hlt := lt_truncToInt_add_one h0
  set t : ℤ := mmath.truncToInt x with ht
  have near : ∀ r : ℤ, |(r : ℚ) - x| ≤ 1 / 2 → ∀ m : ℤ, |(r : ℚ) - x| ≤ |(m : ℚ) - x| := by
    intro r hr m
    by_cases hm : m = r
    · rw [hm]
    · have h1 : (1 : ℚ) ≤ |(m : ℚ) - r| := by
        have h2 : (1 : ℤ) ≤ |m - r| := Int.one_le_abs (sub_ne_zero.mpr hm)
        exact_mod_cast h2
      have h3 : |(m : ℚ) - r| ≤ |(m : ℚ) - x| + |(r : ℚ) - x| := by
        have := abs_sub_le (m : ℚ) x r
        rwa [abs_sub_comm x (r : ℚ)] at this
      linarith
  have hfrac : mmath.frac x = some (x - t) := by
    unfold mmath.frac mmath.trunc
    rw [hfl, mmath_abs_eq, abs_of_nonneg h0, Option.map_some']
  by_cases hhalf : 1 / 2 < x - t
  · have hr : |((t + 1 : ℤ) : ℚ) - x| ≤ 1 / 2 := by
      push_cast
      rw [abs_le]
      constructor <;> linarith
    refine ⟨t, t + 1, hfl, ?_, fun _ => rfl, fun h => absurd hhalf (not_lt.mpr h), hr,
      near _ hr⟩
    unfold mmath.round mmath.ceil
    rw [hfrac, Option.some_bind, if_pos hhalf, hfl, Option.map_some']
    push_cast
    rfl
  · have hr : |(t : ℚ) - x| ≤ 1 / 2 := by
      rw [abs_le]
      constructor <;> linarith
    refine ⟨t, t, hfl, ?_, fun h => absurd h hhalf, fun _ => rfl, hr, near _ hr⟩
    unfold mmath.round mmath.trunc
    rw [hfrac, Option.some_bind, if_neg hhalf, hfl]

/-- The hypotheses of `round_nonneg_nearest` hold at the tie `x = 7/2`. -/
theorem round_nonneg_nearest_witness :
    (0 : ℚ) ≤ 7 / 2 ∧ (7 / 2 : ℚ) < 2 ^ 64 ∧
    ∃ t r : ℤ, mmath.trunc (7 / 2) = some (t : ℚ) ∧ mmath.round (7 / 2) = some (r : ℚ) ∧
      (1 / 2 < (7 / 2 : ℚ) - t → r = t + 1) ∧ ((7 / 2 : ℚ) - t ≤ 1 / 2 → r = t) ∧
      |(r : ℚ) - 7 / 2| ≤ 1 / 2 ∧ ∀ m : ℤ, |(r : ℚ) - 7 / 2| ≤ |(m : ℚ) - 7 / 2| :=
  ⟨by norm_num, by norm_num, round_nonneg_nearest (7 / 2) (by norm_num) (by norm_num)⟩

/-- C5: for every `x` and every `y != 0` with `|x / y| < 2^63`, the 64-bit cast
in `mod` yields the same integer `t` as the library `trunc` of the quotient,
and `r = mod x y` satisfies `x = y * t + r`, is zero or has the sign of `x`,
and `|r| < |y|`. -/
theorem mod_truncated_division (x y : ℚ) (hy : y ≠ 0) (hq : |x / y| < 2 ^ 63) :
    ∃ t : ℤ, ∃ r : ℚ, mmath.trunc (x / y) = some (t : ℚ) ∧
      mmath.toInt64 (x / y) = some t ∧ mmath.mod x y = some r ∧
      x = y * t + r ∧ (r = 0 ∨ (0 < r ∧ 0 < x) ∨ (r < 0 ∧ x < 0)) ∧ |r| < |y| := by
  have hq64 : |x / y| < 2 ^ 64 := lt_trans hq (by norm_num)
  have hcast := toInt64_of_lt hq
  set q : ℚ := x / y with hqdef
  set t : ℤ := mmath.truncToInt q with ht
  have hx : x = y * q := by rw [hqdef]; field_simp
  have hmod : mmath.mod x y = some (x - y * t) := by
    unfold mmath.mod
    rw [if_neg hy, hcast, Option.map_some']
  have hr : x - y * (t : ℚ) = y * (q - t) := by rw [hx]; ring
  have hy0 : 0 < |y| := abs_pos.mpr hy
  refine ⟨t, x - y * t, floor_eq_truncToInt q hq64, hcast, hmod, by ring, ?_, ?_⟩
  · rcases le_total 0 q with h0 | h0
    · have h1 : (t : ℚ) ≤ q := truncToInt_le h0
      have h2 : (0 : ℚ) ≤ t := by exact_mod_cast truncToInt_nonneg h0
      rcases h1.lt_or_eq with h3 | h3
      · have hd : 0 < q - t := sub_pos.mpr h3
        have hqpos : 0 < q := lt_of_le_of_lt h2 h3
        rcases lt_or_gt_of_ne hy with hyn | hyp
        · right; right
          rw [hr]
          exact ⟨mul_neg_of_neg_of_pos hyn hd, by rw [hx]; exact mul_neg_of_neg_of_pos hyn hqpos⟩
        · right; left
          rw [hr]
          exact ⟨mul_pos hyp hd, by rw [hx]; exact mul_pos hyp hqpos⟩
      · left
        rw [hr, h3, sub_self, mul_zero]
    · have h1 : q ≤ (t : ℚ) := by
        rw [ht, truncToInt_of_nonpos h0]
        exact Int.le_ceil q
      have h2 : (t : ℚ) ≤ 0 := by
        have h4 := truncToInt_nonneg (neg_nonneg.mpr h0)
        rw [truncToInt_neg] at h4
        have h5 : t ≤ 0 := by linarith
        exact_mod_cast h5
      rcases h1.lt_or_eq with h3 | h3
      · have hd : q - t < 0 := sub_neg.mpr h3
        have hqneg : q < 0 := lt_of_lt_of_le h3 h2
        rcases lt_or_gt_of_ne hy with hyn | hyp
        · right; left
          rw [hr]
          exact ⟨mul_pos_of_neg_of_neg hyn hd, by rw [hx]; exact mul_pos_of_neg_of_neg hyn hqneg⟩
        · right; right
          rw [hr]
          exact ⟨mul_neg_of_pos_of_neg hyp hd, by rw [hx]; exact mul_neg_of_pos_of_neg hyp hqneg⟩
      · left
        rw [hr, h3, sub_self, mul_zero]
  · have hd : |q - t| < 1 := by
      rw [abs_lt]
      rcases le_total 0 q with h0 | h0
      · have h1 : (t : ℚ) ≤ q := truncToInt_le h0
        have h2 : q < (t : ℚ) + 1 := lt_truncToInt_add_one h0
        constructor <;> linarith
      · have h1 : q ≤ (t : ℚ) := by
          rw [ht, truncToInt_of_nonpos h0]
          exact Int.le_ceil q
        have h2 : (t : ℚ) < q + 1 := by
          rw [ht, truncToInt_of_nonpos h0]
          exact Int.ceil_lt_add_one q
        constructor <;> linarith
    rw [hr, abs_mul]
    calc |y| * |q - ↑t| < |y| * 1 := mul_lt_mul_of_pos_left hd hy0
      _ = |y| := mul_one _

/-- The hypotheses of `mod_truncated_division` hold at `x = -15/2`, `y = 2`. -/
theorem mod_truncated_division_witness :
    (2 : ℚ) ≠ 0 ∧ |(-15 / 2 : ℚ) / 2| < 2 ^ 63 ∧
    ∃ t : ℤ, ∃ r : ℚ, mmath.trunc ((-15 / 2) / 2) = some (t : ℚ) ∧
      mmath.toInt64 ((-15 / 2) / 2) = some t ∧ mmath.mod (-15 / 2) 2 = some r ∧
      (-15 / 2 : ℚ) = 2 * t + r ∧ (r = 0 ∨ (0 < r ∧ (0 : ℚ) < -15 / 2) ∨
        (r < 0 ∧ (-15 / 2 : ℚ) < 0)) ∧ |r| < |(2 : ℚ)| :=
  ⟨by norm_num, by norm_num [abs_lt],
    mod_truncated_division (-15 / 2) 2 (by norm_num) (by norm_num [abs_lt])⟩

/-! ## Comparison helpers -/

theorem truncToInt_intCast (n : ℤ) : mmath.truncToInt (n : ℚ) = n := by
  unfold mmath.truncToInt
  simp

theorem truncToInt_eq_of_nonneg {a : ℚ} {n : ℤ} (h2 : (n : ℚ) ≤ a) (h3 : a < n + 1)
    (h0 : 0 ≤ a) : mmath.truncToInt a = n := by
  rw [truncToInt_of_nonneg h0]
  exact Int.floor_eq_iff.mpr ⟨h2, h3⟩

theorem truncToInt_eq_of_nonpos {a : ℚ} {n : ℤ} (h2 : (n : ℚ) - 1 < a) (h3 : a ≤ n)
    (h0 : a ≤ 0) : mmath.truncToInt a = n := by
  rw [truncToInt_of_nonpos h0]
  exact Int.ceil_eq_iff.mpr ⟨h2, h3⟩

/-- The scenario `floor(3.7) = 3`, `frac(3.7) = 0.7`, `round(3.7) = 4`, with
the decimal read as the rational `37/10`. -/
theorem rounding_scenario :
    mmath.floor (37 / 10) = some 3 ∧ mmath.frac (37 / 10) = some (7 / 10) ∧
      mmath.round (37 / 10) = some 4 := by
  have ht : mmath.truncToInt (37 / 10) = 3 :=
    truncToInt_eq_of_nonneg (by norm_num) (by norm_num) (by norm_num)
  have hf : mmath.floor (37 / 10) = some 3 := by
    rw [floor_eq_truncToInt _ (by norm_num [abs_lt]), ht]
    norm_num
  have hfrac : mmath.frac (37 / 10) = some (7 / 10) := by
    unfold mmath.frac mmath.trunc
    rw [hf]
    norm_num [mmath.abs]
  refine ⟨hf, hfrac, ?_⟩
  unfold mmath.round mmath.ceil
  rw [hfrac, hf]
  norm_num

/-- C2: at the input `x = -3/2` the function `frac` returns `5/2`, which is not
below 1: for a negative argument `abs x` and `trunc x` have opposite signs and
the subtraction adds the two magnitudes. -/
theorem frac_neg_three_halves :
    mmath.frac (-3 / 2) = some (5 / 2) ∧ ¬ ((5 / 2 : ℚ) < 1) := by
  have ht : mmath.truncToInt (-3 / 2) = -1 :=
    truncToInt_eq_of_nonpos (by norm_num) (by norm_num) (by norm_num)
  refine ⟨?_, by norm_num⟩
  unfold mmath.frac mmath.trunc
  rw [floor_eq_truncToInt _ (by norm_num [abs_lt]), ht]
  norm_num [mmath.abs]

/-- C4: at the integer input `x = 3`, where `floor` returns 3 and so rounds
toward negative infinity, the function `ceil` returns 4, while the least
integer at least 3 is 3. -/
theorem ceil_three : mmath.floor 3 = some 3 ∧ mmath.ceil 3 = some 4 := by
  have ht : mmath.truncToInt 3 = 3 := by exact_mod_cast truncToInt_intCast 3
  have hf : mmath.floor 3 = some 3 := by
    rw [floor_eq_truncToInt _ (by norm_num [abs_lt]), ht]
    norm_num
  refine ⟨hf, ?_⟩
  unfold mmath.ceil
  rw [hf]
  norm_num

/-- C6: at `x = 1`, `y = 3`, `rel_tol = 0`, `abs_tol = 5` the function `close`
returns false although `|x - y| = 2` is at most
`max (rel_tol * max |x| |y|) abs_tol = 5`. -/
theorem close_one_three :
    mmath.close 1 3 0 5 = false ∧ |(1 : ℚ) - 3| ≤ max (0 * max |(1 : ℚ)| |(3 : ℚ)|) 5 := by
  constructor
  · norm_num [mmath.close, mmath.max, mmath.min, mmath.toBool, mmath.ofBool, mmath.abs]
  · norm_num [abs_le]

/-- C8: at `x = 2`, `y = 3` the function `max` returns the truth value true,
which reads back as the number 1, neither of its arguments. -/
theorem max_two_three : mmath.max 2 3 = true ∧ mmath.ofBool (mmath.max 2 3) = 1 := by
  norm_num [mmath.max, mmath.min, mmath.toBool, mmath.ofBool]

/-- C9: at `x = 2`, `y = 3` the function `min` returns the truth value true,
which reads back as the number 1, neither of its arguments. -/
theorem min_two_three : mmath.min 2 3 = true ∧ mmath.ofBool (mmath.min 2 3) = 1 := by
  norm_num [mmath.min, mmath.toBool, mmath.ofBool]

/-! ## Range reduction of the sine -/

theorem floor_zero_eq : mmath.floor 0 = some 0 := by
  have ht : mmath.truncToInt 0 = 0 := by exact_mod_cast truncToInt_intCast 0
  rw [floor_eq_truncToInt 0 (by norm_num), ht]
  norm_num

/-- C10: at the input `x = 1` the locals of `sin` are `sa = 1` and `k = 0`, and
the reduced argument is `arg = -1`, which is negative. -/
theorem sin_arg_one :
    mmath.sin_sa 1 = some 1 ∧ mmath.sin_k 1 = some 0 ∧ mmath.sin_arg 1 = some (-1) := by
  have h1 : mmath.truncToInt (-2 * 1 / mmath.pi) = (0 : ℤ) :=
    truncToInt_eq_of_nonpos (by norm_num [mmath.pi]) (by norm_num [mmath.pi])
      (by norm_num [mmath.pi])
  have h2 : mmath.truncToInt ((1 + 1 / 2 * mmath.pi) / mmath.pi) = (0 : ℤ) :=
    truncToInt_eq_of_nonneg (by norm_num [mmath.pi]) (by norm_num [mmath.pi])
      (by norm_num [mmath.pi])
  have h3 : mmath.truncToInt 1 = 1 := by exact_mod_cast truncToInt_intCast 1
  have hsa : mmath.sin_sa 1 = some 1 := by
    unfold mmath.sin_sa mmath.bitAndOne
    rw [h1]
    norm_num [floor_zero_eq, mmath.toInt8, h3]
  have hk : mmath.sin_k 1 = some 0 := by
    unfold mmath.sin_k
    rw [floor_eq_truncToInt _ (by norm_num [abs_lt, mmath.pi]), h2]
    norm_num
  refine ⟨hsa, hk, ?_⟩
  unfold mmath.sin_arg
  rw [hsa, hk]
  norm_num

/-! ## The cosine -/

/-- C12: for every `x`, `cos x` is `sin (pi/2 - x)` with the library `sin` and
the library constant `pi`, with no computation of its own. -/
theorem cos_eq_sin_complement (x : ℚ) : mmath.cos x = mmath.sin (mmath.pi / 2 - x) := rfl

/-! ## Rounding of negative arguments -/

theorem truncToInt_le_neg_one {x : ℚ} (h1 : x ≤ -1) : mmath.truncToInt x ≤ -1 := by
  rw [truncToInt_of_nonpos (by linarith)]
  exact Int.ceil_le.mpr (by exact_mod_cast h1)

/-- C20: for every `x` with `|x| < 2^64`, `trunc x + frac x = abs x`; the
decomposition `x = trunc x + frac x` holds exactly when `x >= 0`, and for
`x < 0`, `frac x = abs x + floor (abs x)`. -/
theorem trunc_add_frac (x : ℚ) (hx : |x| < 2 ^ 64) :
    ∃ t f : ℚ, mmath.trunc x = some t ∧ mmath.frac x = some f ∧ t + f = mmath.abs x ∧
      (x = t + f ↔ 0 ≤ x) ∧
      (x < 0 → ∃ g : ℚ, mmath.floor (mmath.abs x) = some g ∧ f = mmath.abs x + g) := by
  have hfl := floor_eq_truncToInt x hx
  have hfrac : mmath.frac x = some (mmath.abs x - mmath.truncToInt x) := by
    unfold mmath.frac mmath.trunc
    rw [hfl, Option.map_some']
  refine ⟨mmath.truncToInt x, mmath.abs x - mmath.truncToInt x, hfl, hfrac, by ring, ?_, ?_⟩
  · rw [mmath_abs_eq]
    constructor
    · intro h
      have h2 : x = |x| := by linarith
      rw [h2]
      exact abs_nonneg x
    · intro h
      rw [abs_of_nonneg h]
      ring
  · intro hneg
    have hax : |mmath.abs x| < 2 ^ 64 := by rwa [mmath_abs_eq, abs_abs]
    refine ⟨_, floor_eq_truncToInt _ hax, ?_⟩
    rw [mmath_abs_eq, abs_of_neg hneg, truncToInt_neg]
    push_cast
    ring

/-- The hypothesis of `trunc_add_frac` holds at `x = -3/2`. -/
theorem trunc_add_frac_witness :
    |(-3 / 2 : ℚ)| < 2 ^ 64 ∧
    ∃ t f : ℚ, mmath.trunc (-3 / 2) = some t ∧ mmath.frac (-3 / 2) = some f ∧
      t + f = mmath.abs (-3 / 2) ∧ ((-3 / 2 : ℚ) = t + f ↔ (0 : ℚ) ≤ -3 / 2) ∧
      ((-3 / 2 : ℚ) < 0 →
        ∃ g : ℚ, mmath.floor (mmath.abs (-3 / 2)) = some g ∧ f = mmath.abs (-3 / 2) + g) :=
  ⟨by norm_num [abs_lt], trunc_add_frac (-3 / 2) (by norm_num [abs_lt])⟩

/-! ## Consistency of the sign bit -/

/-- Bit 31 of the pattern written by `bitsOfFloat` is the sign bit used by
`floor`: the two readings of `std::bit_cast<uint32_t>(x) >> 31u` agree. -/
theorem bitsOfFloat_shiftRight (q : ℚ) : mmath.bitsOfFloat q >>> 31 = mmath.signBit q := by
  unfold mmath.bitsOfFloat
  set a : ℚ := if q < 0 then -q else q with ha
  have ha0 : 0 ≤ a := by
    rw [ha]
    split_ifs with h
    · linarith
    · exact not_lt.mp h
  set e : ℤ := Int.log 2 a with he
  have hbody : (if a = 0 then 0
      else if e < -126 then ⌊a * 2 ^ 149⌋₊
      else if 127 < e then 0x7f800000
      else (e + 127).toNat * 2 ^ 23 + (⌊a / 2 ^ e * 2 ^ 23⌋₊ - 2 ^ 23)) < 2 ^ 31 := by
    split_ifs with h0 h1 h2
    · norm_num
    · have hpos : 0 < a := lt_of_le_of_ne ha0 (Ne.symm h0)
      have hlt : a < (2 : ℚ) ^ (e + 1) := by
        have := Int.lt_zpow_succ_log_self (b := 2) (by norm_num) a
        exact_mod_cast this
      have hle : (2 : ℚ) ^ (e + 1) ≤ 2 ^ (-126 : ℤ) :=
        zpow_le_zpow_right₀ (by norm_num) (by omega)
      have hlt2 : a * 2 ^ 149 < ((2 ^ 31 : ℕ) : ℚ) := by
        have h3 : a * 2 ^ 149 < 2 ^ (-126 : ℤ) * 2 ^ 149 :=
          mul_lt_mul_of_pos_right (lt_of_lt_of_le hlt hle) (by positivity)
        have h4 : (2 : ℚ) ^ (-126 : ℤ) * 2 ^ 149 = 2 ^ 23 := by
          rw [zpow_neg, ← div_eq_inv_mul]
          norm_num
        rw [h4] at h3
        push_cast
        linarith [show (2 : ℚ) ^ 23 < 2 ^ 31 by norm_num]
      exact (Nat.floor_lt (by positivity)).mpr hlt2
    · norm_num
    · have hpos : 0 < a := lt_of_le_of_ne ha0 (Ne.symm h0)
      have hlt : a < (2 : ℚ) ^ (e + 1) := by
        have := Int.lt_zpow_succ_log_self (b := 2) (by norm_num) a
        exact_mod_cast this
      have hepos : (0 : ℚ) < 2 ^ e := by positivity
      have hq : a / 2 ^ e * 2 ^ 23 < ((2 ^ 24 : ℕ) : ℚ) := by
        have h3 : a / 2 ^ e < 2 := by
          rw [div_lt_iff₀ hepos]
          calc a < (2 : ℚ) ^ (e + 1) := hlt
            _ = 2 * 2 ^ e := by rw [zpow_add_one₀ (by norm_num)]; ring
        have h4 : a / 2 ^ e * 2 ^ 23 < 2 * 2 ^ 23 :=
          mul_lt_mul_of_pos_right h3 (by positivity)
        push_cast
        linarith [show (2 : ℚ) * 2 ^ 23 = 2 ^ 24 by norm_num]
      have hfl : ⌊a / 2 ^ e * 2 ^ 23⌋₊ < 2 ^ 24 :=
        (Nat.floor_lt (by positivity)).mpr hq
      have hexp : (e + 127).toNat ≤ 254 := by omega
      norm_num at hfl ⊢
      omega
  have key : ∀ s body : ℕ, body < 2 ^ 31 → (s * 2 ^ 31 + body) >>> 31 = s := by
    intro s body h
    rw [Nat.shiftRight_eq_div_pow]
    norm_num at h ⊢
    omega
  exact key _ _ hbody

/-! ## Bit-level steps of the tangent -/

/-- C16: on the pattern `0x3F800000` of `1.0f`, whose bit 31 is 0, `in_sign` is
0, and on the pattern `0xBF800000` of `-1.0f`, whose bit 31 is 1, `in_sign` is
-2: the values are 0 and -2, not +1 and -1. -/
theorem tan_in_sign_examples :
    Nat.testBit 0x3F800000 31 = false ∧ mmath.tan_in_sign 0x3F800000 = 0 ∧
    Nat.testBit 0xBF800000 31 = true ∧ mmath.tan_in_sign 0xBF800000 = -2 := by
  refine ⟨by decide, ?_, by decide, ?_⟩
  · unfold mmath.tan_in_sign
    decide
  · unfold mmath.tan_in_sign
    decide

/-- C17: on the pattern `0x3F800000` of `1.0f` the sign cancelling step returns
`0x07800000`: bit 29, which is set in the argument, is cleared in the result,
because the mask `0x7ffffff` keeps bits 0 to 26 only. -/
theorem tan_cancel_sign_example :
    mmath.tan_cancel_sign 0x3F800000 = 0x07800000 ∧
    Nat.testBit 0x3F800000 29 = true ∧
    Nat.testBit (mmath.tan_cancel_sign 0x3F800000) 29 = false := by
  refine ⟨?_, by decide, ?_⟩
  · unfold mmath.tan_cancel_sign
    decide
  · unfold mmath.tan_cancel_sign
    decide

/-! ## Range of the integer cast in `floor` -/

theorem toUInt64_isSome_iff {a : ℚ} (h0 : 0 ≤ a) :
    (mmath.toUInt64 a).isSome ↔ a < 2 ^ 64 := by
  constructor
  · intro h
    unfold mmath.toUInt64 at h
    split_ifs at h with hc
    · have h2 : ⌊a⌋ < (2 ^ 64 : ℤ) := by
        rw [← truncToInt_of_nonneg h0]
        exact hc.2
      have h3 := Int.floor_lt.mp h2
      exact_mod_cast h3
    · simp at h
  · intro h
    rw [toUInt64_of_lt h0 h]
    rfl

/-- C18, counterexample: the pattern `0x5F800000` is finite and normalized, its
value is `2^64`, the magnitude handed to the cast is `2^64`, outside
`[0, 2^64)`, and `floor` has no value there. -/
theorem floor_range_counterexample :
    mmath.isFiniteNormalized 0x5F800000 = true ∧
    mmath.floatOfBits 0x5F800000 = some (2 ^ 64) ∧
    ¬ (mmath.abs (2 ^ 64) < 2 ^ 64) ∧ mmath.floor (2 ^ 64) = none := by
  have habs : mmath.abs (2 ^ 64) = 2 ^ 64 := by
    rw [mmath_abs_eq]
    norm_num
  refine ⟨by decide, ?_, ?_, ?_⟩
  · unfold mmath.floatOfBits
    norm_num [Nat.shiftRight_eq_div_pow]
  · rw [habs]
    exact lt_irrefl _
  · have h : ¬ (mmath.toUInt64 (mmath.abs (2 ^ 64))).isSome := by
      rw [habs, toUInt64_isSome_iff (by norm_num)]
      exact lt_irrefl _
    unfold mmath.floor
    cases hc : mmath.toUInt64 (mmath.abs (2 ^ 64)) with
    | none => rfl
    | some n => rw [hc] at h; simp at h

/-- C18, amended: the magnitude handed to the 64-bit unsigned cast lies in the
range of the cast exactly when `|x| < 2^64`; `floor` returns a value exactly
for these `x`, and then `trunc`, `ceil`, `frac` and `round` return a value
too. -/
theorem floor_defined_iff (x : ℚ) :
    (0 ≤ mmath.abs x) ∧
    ((mmath.toUInt64 (mmath.abs x)).isSome ↔ mmath.abs x < 2 ^ 64) ∧
    ((mmath.floor x).isSome ↔ |x| < 2 ^ 64) ∧
    (|x| < 2 ^ 64 → (mmath.trunc x).isSome ∧ (mmath.ceil x).isSome ∧
      (mmath.frac x).isSome ∧ (mmath.round x).isSome) := by
  have h0 : 0 ≤ mmath.abs x := by
    rw [mmath_abs_eq]
    exact abs_nonneg x
  have hiff := toUInt64_isSome_iff h0
  refine ⟨h0, hiff, ?_, ?_⟩
  · rw [← mmath_abs_eq, ← hiff]
    unfold mmath.floor
    simp
  · intro hx
    have hfl := floor_eq_truncToInt x hx
    have hfrac : mmath.frac x = some (mmath.abs x - mmath.truncToInt x) := by
      unfold mmath.frac mmath.trunc
      rw [hfl, Option.map_some']
    refine ⟨?_, ?_, ?_, ?_⟩
    · unfold mmath.trunc
      rw [hfl]
      rfl
    · unfold mmath.ceil
      rw [hfl]
      rfl
    · rw [hfrac]
      rfl
    · unfold mmath.round mmath.ceil mmath.trunc
      rw [hfrac, Option.some_bind, hfl]
      split_ifs <;> rfl

/-- The hypothesis of `floor_defined_iff` holds at `x = -37/10`. -/
theorem floor_defined_iff_witness :
    |(-37 / 10 : ℚ)| < 2 ^ 64 ∧ (mmath.trunc (-37 / 10)).isSome ∧
      (mmath.ceil (-37 / 10)).isSome ∧ (mmath.frac (-37 / 10)).isSome ∧
      (mmath.round (-37 / 10)).isSome :=
  ⟨by norm_num [abs_lt], (floor_defined_iff (-37 / 10)).2.2.2 (by norm_num [abs_lt])⟩

/-! ## Values of the sine and of the tangent -/

theorem sin_locals_at_one :
    mmath.sin_sf 1 = some 1 ∧ mmath.sin_arg 1 = some (-1) := by
  have h0 : mmath.truncToInt (1 / mmath.pi) = (0 : ℤ) :=
    truncToInt_eq_of_nonneg (by norm_num [mmath.pi]) (by norm_num [mmath.pi])
      (by norm_num [mmath.pi])
  have h1 : mmath.truncToInt (-2 * 1 / mmath.pi) = (0 : ℤ) :=
    truncToInt_eq_of_nonpos (by norm_num [mmath.pi]) (by norm_num [mmath.pi])
      (by norm_num [mmath.pi])
  have h2 : mmath.truncToInt ((1 + 1 / 2 * mmath.pi) / mmath.pi) = (0 : ℤ) :=
    truncToInt_eq_of_nonneg (by norm_num [mmath.pi]) (by norm_num [mmath.pi])
      (by norm_num [mmath.pi])
  have h3 : mmath.truncToInt 1 = 1 := by exact_mod_cast truncToInt_intCast 1
  have hsf : mmath.sin_sf 1 = some 1 := by
    unfold mmath.sin_sf mmath.bitAndOne
    rw [h0]
    norm_num [floor_zero_eq, mmath.toInt8, h3]
  have hsa : mmath.sin_sa 1 = some 1 := by
    unfold mmath.sin_sa mmath.bitAndOne
    rw [h1]
    norm_num [floor_zero_eq, mmath.toInt8, h3]
  have hk : mmath.sin_k 1 = some 0 := by
    unfold mmath.sin_k
    rw [floor_eq_truncToInt _ (by norm_num [abs_lt, mmath.pi]), h2]
    norm_num
  refine ⟨hsf, ?_⟩
  unfold mmath.sin_arg
  rw [hsa, hk]
  norm_num

/-- C11: at the input `x = 1` the function `sin` returns
`-0.7411152964491`, the polynomial at the reduced argument `-1`, which is more
than `1e-2` away from the sine of 1 (a positive number). -/
theorem sin_one_far_from_sine :
    mmath.sin 1 = some (-7411152964491 / 10000000000000) ∧
    1 / 100 < |((-7411152964491 / 10000000000000 : ℚ) : ℝ) - Real.sin 1| := by
  constructor
  · unfold mmath.sin
    rw [sin_locals_at_one.1, sin_locals_at_one.2]
    norm_num [mmath.sin_poly]
  · have hpos : 0 < Real.sin 1 :=
      Real.sin_pos_of_pos_of_lt_pi one_pos (by linarith [Real.pi_gt_three])
    rw [abs_of_neg (by push_cast; linarith)]
    push_cast
    linarith

/-- C13: at the input `x = -2` the reduced argument of `tan` is `-2`, which is
below `-pi/2` for the library constant and for the number pi alike. -/
theorem tan_in_neg_two :
    mmath.tan_in (-2) = some (-2) ∧ (-2 : ℚ) < -(mmath.pi / 2) ∧
    (-2 : ℝ) < -(Real.pi / 2) := by
  have hq : mmath.truncToInt ((-2 + mmath.pihalved) / mmath.pi) = (0 : ℤ) :=
    truncToInt_eq_of_nonpos (by norm_num [mmath.pi, mmath.pihalved])
      (by norm_num [mmath.pi, mmath.pihalved]) (by norm_num [mmath.pi, mmath.pihalved])
  refine ⟨?_, by norm_num [mmath.pi], by linarith [Real.pi_lt_d2]⟩
  unfold mmath.tan_in mmath.mod
  rw [if_neg (by norm_num [mmath.pi]),
    toInt64_of_lt (by norm_num [abs_lt, mmath.pi, mmath.pihalved]), hq]
  norm_num

theorem int_log_two_eq {a : ℚ} {e : ℤ} (h0 : 0 < a) (h1 : (2 : ℚ) ^ e ≤ a)
    (h2 : a < (2 : ℚ) ^ (e + 1)) : Int.log 2 a = e := by
  apply le_antisymm
  · have := (Int.lt_zpow_iff_log_lt (b := 2) (by norm_num) h0 (x := e + 1)).mp
      (by exact_mod_cast h2)
    omega
  · exact (Int.zpow_le_iff_le_log (b := 2) (by norm_num) h0).mp (by exact_mod_cast h1)

theorem bitsOfFloat_quarter_pi : mmath.bitsOfFloat (13176795 / 16777216) = 0x3F490FDB := by
  have hlog : Int.log 2 (13176795 / 16777216 : ℚ) = -1 :=
    int_log_two_eq (by norm_num) (by norm_num) (by norm_num)
  unfold mmath.bitsOfFloat mmath.signBit
  norm_num [hlog]
  decide

theorem tan_in_quarter_pi : mmath.tan_in (13176795 / 16777216) = some (13176795 / 16777216) := by
  have hq : mmath.truncToInt ((13176795 / 16777216 + mmath.pihalved) / mmath.pi) = (0 : ℤ) :=
    truncToInt_eq_of_nonneg (by norm_num [mmath.pi, mmath.pihalved])
      (by norm_num [mmath.pi, mmath.pihalved]) (by norm_num [mmath.pi, mmath.pihalved])
  unfold mmath.tan_in mmath.mod
  rw [if_neg (by norm_num [mmath.pi]),
    toInt64_of_lt (by norm_num [abs_lt, mmath.pi, mmath.pihalved]), hq]
  norm_num

/-- C14: at the input `x = pi/4` (the library constant divided by 4) the
function `tan` returns 0, because `in_sign` is 0 for a non-negative reduced
argument; the tangent of that `x` is above `x`, so the result is more than
`1e-2` away from it. -/
theorem tan_quarter_pi_is_zero :
    mmath.tan (mmath.pi / 4) = some 0 ∧
    1 / 100 < |((0 : ℚ) : ℝ) - Real.tan ((mmath.pi / 4 : ℚ) : ℝ)| := by
  have hx : mmath.pi / 4 = 13176795 / 16777216 := by norm_num [mmath.pi]
  have hsign : mmath.tan_in_sign 0x3F490FDB = 0 := by
    unfold mmath.tan_in_sign
    decide
  have hmask : mmath.tan_cancel_sign 0x3F490FDB = 0x07490FDB := by
    unfold mmath.tan_cancel_sign
    decide
  have hval : mmath.floatOfBits 0x07490FDB = some (13176795 * 2 ^ (-136 : ℤ)) := by
    unfold mmath.floatOfBits
    norm_num [Nat.shiftRight_eq_div_pow]
  rw [hx]
  constructor
  · unfold mmath.tan
    rw [tan_in_quarter_pi, Option.some_bind, bitsOfFloat_quarter_pi]
    simp only [hsign, hmask, hval, Option.some_bind]
    rw [if_neg (by norm_num [mmath.pihalved, mmath.pi])]
    norm_num
  · have h1 : (0 : ℝ) < ((13176795 / 16777216 : ℚ) : ℝ) := by
      push_cast
      norm_num
    have h2 : ((13176795 / 16777216 : ℚ) : ℝ) < Real.pi / 2 := by
      push_cast
      linarith [Real.pi_gt_three]
    have h3 := Real.lt_tan h1 h2
    have h4 : (1 / 100 : ℝ) < ((13176795 / 16777216 : ℚ) : ℝ) := by
      push_cast
      norm_num
    rw [Rat.cast_zero, zero_sub, abs_neg, abs_of_pos (lt_trans h1 h3)]
    linarith

/-! ## Polynomial bounds for the sine -/

theorem nonneg_of_deriv_nonneg (f f' : ℝ → ℝ) (hf : ∀ x, HasDerivAt f (f' x) x)
    (h0 : f 0 = 0) (hf' : ∀ x, 0 ≤ x → 0 ≤ f' x) {x : ℝ} (hx : 0 ≤ x) : 0 ≤ f x := by
  have hmono : MonotoneOn f (Set.Ici 0) := by
    apply monotoneOn_of_deriv_nonneg (convex_Ici 0)
    · exact fun y _ => (hf y).continuousAt.continuousWithinAt
    · exact fun y _ => (hf y).differentiableAt.differentiableWithinAt
    · intro y hy
      rw [interior_Ici] at hy
      rw [(hf y).deriv]
      exact hf' y (le_of_lt hy)
  have h := hmono Set.left_mem_Ici hx hx
  rwa [h0] at h

theorem hasDerivAt_monomial (n : ℕ) (c x : ℝ) :
    HasDerivAt (fun y : ℝ => y ^ (n + 1) / c) ((n + 1 : ℕ) * x ^ n / c) x := by
  have h := (hasDerivAt_pow (n + 1) x).div_const c
  simpa using h

theorem sin_ge_taylor3 {x : ℝ} (hx : 0 ≤ x) : x - x ^ 3 / 6 ≤ Real.sin x := by
  have h := nonneg_of_deriv_nonneg (fun y => Real.sin y - (y - y ^ 3 / 6))
    (fun y => Real.cos y - (1 - y ^ 2 / 2)) (fun y => by
      have h3 := hasDerivAt_monomial 2 6 y
      have := (Real.hasDerivAt_sin y).sub ((hasDerivAt_id y).sub h3)
      convert this using 1
      push_cast
      ring) (by simp)
    (fun y _ => by linarith [Real.one_sub_sq_div_two_le_cos (x := y)]) hx
  simp only at h
  linarith

theorem cos_le_taylor4 {x : ℝ} (hx : 0 ≤ x) :
    Real.cos x ≤ 1 - x ^ 2 / 2 + x ^ 4 / 24 := by
  have h := nonneg_of_deriv_nonneg
    (fun y => (-(y ^ 2 / 2) + y ^ 4 / 24) - (Real.cos y - 1))
    (fun y => (-y + y ^ 3 / 6) - (-Real.sin y)) (fun y => by
      have h2 := hasDerivAt_monomial 1 2 y
      have h4 := hasDerivAt_monomial 3 24 y
      have := (h2.neg.add h4).sub ((Real.hasDerivAt_cos y).sub_const 1)
      convert this using 1
      push_cast
      ring) (by simp)
    (fun y hy => by linarith [sin_ge_taylor3 hy]) hx
  simp only at h
  linarith

theorem sin_le_taylor5 {x : ℝ} (hx : 0 ≤ x) :
    Real.sin x ≤ x - x ^ 3 / 6 + x ^ 5 / 120 := by
  have h := nonneg_of_deriv_nonneg
    (fun y => (y - y ^ 3 / 6 + y ^ 5 / 120) - Real.sin y)
    (fun y => (1 - y ^ 2 / 2 + y ^ 4 / 24) - Real.cos y) (fun y => by
      have h3 := hasDerivAt_monomial 2 6 y
      have h5 := hasDerivAt_monomial 4 120 y
      have := (((hasDerivAt_id y).sub h3).add h5).sub (Real.hasDerivAt_sin y)
      convert this using 1
      push_cast
      ring) (by simp)
    (fun y hy => by linarith [cos_le_taylor4 hy]) hx
  simp only at h
  linarith

theorem cos_ge_taylor6 {x : ℝ} (hx : 0 ≤ x) :
    1 - x ^ 2 / 2 + x ^ 4 / 24 - x ^ 6 / 720 ≤ Real.cos x := by
  have h := nonneg_of_deriv_nonneg
    (fun y => (Real.cos y - 1) - (-(y ^ 2 / 2) + y ^ 4 / 24 - y ^ 6 / 720))
    (fun y => (-Real.sin y) - (-y + y ^ 3 / 6 - y ^ 5 / 120)) (fun y => by
      have h2 := hasDerivAt_monomial 1 2 y
      have h4 := hasDerivAt_monomial 3 24 y
      have h6 := hasDerivAt_monomial 5 720 y
      have := ((Real.hasDerivAt_cos y).sub_const 1).sub ((h2.neg.add h4).sub h6)
      convert this using 1
      push_cast
      ring) (by simp)
    (fun y hy => by linarith [sin_le_taylor5 hy]) hx
  simp only at h
  linarith

theorem sin_ge_taylor7 {x : ℝ} (hx : 0 ≤ x) :
    x - x ^ 3 / 6 + x ^ 5 / 120 - x ^ 7 / 5040 ≤ Real.sin x := by
  have h := nonneg_of_deriv_nonneg
    (fun y => Real.sin y - (y - y ^ 3 / 6 + y ^ 5 / 120 - y ^ 7 / 5040))
    (fun y => Real.cos y - (1 - y ^ 2 / 2 + y ^ 4 / 24 - y ^ 6 / 720)) (fun y => by
      have h3 := hasDerivAt_monomial 2 6 y
      have h5 := hasDerivAt_monomial 4 120 y
      have h7 := hasDerivAt_monomial 6 5040 y
      have := (Real.hasDerivAt_sin y).sub ((((hasDerivAt_id y).sub h3).add h5).sub h7)
      convert this using 1
      push_cast
      ring) (by simp)
    (fun y hy => by linarith [cos_ge_taylor6 hy]) hx
  simp only at h
  linarith

/-! ## The polynomial of the sine on the canonical interval -/

theorem basis_term_nonneg {a : ℝ} (h0 : 0 ≤ a) (h1 : a ≤ 8 / 5) (i j : ℕ) :
    0 ≤ a ^ i * (8 / 5 - a) ^ j :=
  mul_nonneg (pow_nonneg h0 i) (pow_nonneg (sub_nonneg.mpr h1) j)

theorem sin_poly_sub_taylor7_le {a : ℝ} (h0 : 0 ≤ a) (h1 : a ≤ 8 / 5) :
    mmath.sin_poly a - (a - a ^ 3 / 6 + a ^ 5 / 120 - a ^ 7 / 5040) ≤ 1 / 100 := by
  unfold mmath.sin_poly
  linarith [basis_term_nonneg h0 h1 0 7, basis_term_nonneg h0 h1 1 6, basis_term_nonneg h0 h1 2 5,
    basis_term_nonneg h0 h1 3 4, basis_term_nonneg h0 h1 4 3, basis_term_nonneg h0 h1 5 2,
    basis_term_nonneg h0 h1 6 1, basis_term_nonneg h0 h1 7 0]

theorem taylor5_sub_sin_poly_le {a : ℝ} (h0 : 0 ≤ a) (h1 : a ≤ 8 / 5) :
    (a - a ^ 3 / 6 + a ^ 5 / 120) - mmath.sin_poly a ≤ 1 / 100 := by
  unfold mmath.sin_poly
  linarith [basis_term_nonneg h0 h1 0 7, basis_term_nonneg h0 h1 1 6, basis_term_nonneg h0 h1 2 5,
    basis_term_nonneg h0 h1 3 4, basis_term_nonneg h0 h1 4 3, basis_term_nonneg h0 h1 5 2,
    basis_term_nonneg h0 h1 6 1, basis_term_nonneg h0 h1 7 0]

theorem sin_poly_close_of_le {a : ℝ} (h0 : 0 ≤ a) (h1 : a ≤ 8 / 5) :
    |mmath.sin_poly a - Real.sin a| ≤ 1 / 100 := by
  rw [abs_le]
  constructor
  · linarith [sin_le_taylor5 h0, taylor5_sub_sin_poly_le h0 h1]
  · linarith [sin_ge_taylor7 h0, sin_poly_sub_taylor7_le h0 h1]

/-- C15: the polynomial of `sin` is 0 at 0, and for every real `a` with
`0 <= a <= pi/2`, for the number pi as well as for the library constant, its
value is within `1e-2` of the sine of `a`. -/
theorem sin_poly_approximates_sine (a : ℝ) (h0 : 0 ≤ a)
    (h1 : a ≤ max (Real.pi / 2) (((mmath.pi : ℚ) : ℝ) / 2)) :
    mmath.sin_poly (0 : ℝ) = 0 ∧ mmath.sin_poly (0 : ℚ) = 0 ∧
    |mmath.sin_poly a - Real.sin a| ≤ 1 / 100 := by
  refine ⟨by simp [mmath.sin_poly], by simp [mmath.sin_poly], ?_⟩
  have hlib : ((mmath.pi : ℚ) : ℝ) / 2 ≤ 8 / 5 := by
    unfold mmath.pi
    push_cast
    norm_num
  have hmax : max (Real.pi / 2) (((mmath.pi : ℚ) : ℝ) / 2) ≤ 8 / 5 :=
    max_le (by linarith [Real.pi_lt_d2]) hlib
  exact sin_poly_close_of_le h0 (le_trans h1 hmax)

/-- The hypotheses of `sin_poly_approximates_sine` hold at `a = 1`. -/
theorem sin_poly_approximates_sine_witness :
    (0 : ℝ) ≤ 1 ∧ (1 : ℝ) ≤ max (Real.pi / 2) (((mmath.pi : ℚ) : ℝ) / 2) ∧
    (mmath.sin_poly (0 : ℝ) = 0 ∧ mmath.sin_poly (0 : ℚ) = 0 ∧
    |mmath.sin_poly (1 : ℝ) - Real.sin 1| ≤ 1 / 100) :=
  ⟨zero_le_one, le_max_of_le_left (by linarith [Real.pi_gt_three]),
    sin_poly_approximates_sine 1 zero_le_one
      (le_max_of_le_left (by linarith [Real.pi_gt_three]))⟩

/-! ## Rounding to single precision -/

theorem roundHalfEven_intCast (m : ℤ) : mmath.roundHalfEven (m : ℚ) = m := by
  unfold mmath.roundHalfEven
  simp

theorem floor_le_roundHalfEven (n : ℚ) : ⌊n⌋ ≤ mmath.roundHalfEven n := by
  unfold mmath.roundHalfEven
  simp only
  split_ifs <;> omega

theorem roundHalfEven_le_floor_add_one (n : ℚ) : mmath.roundHalfEven n ≤ ⌊n⌋ + 1 := by
  unfold mmath.roundHalfEven
  simp only
  split_ifs <;> omega

/-- An integer of magnitude below `2^24` is a float: rounding leaves it
unchanged. -/
theorem roundToFloat_intCast (m : ℤ) (h : |m| < 2 ^ 24) :
    mmath.roundToFloat (m : ℚ) = some (m : ℚ) := by
  have hlog : Int.log 2 |(m : ℚ)| ≤ 23 := by
    rcases eq_or_ne m 0 with h0 | h0
    · rw [h0]
      simp [Int.log_of_right_le_zero]
    · have hpos : (0 : ℚ) < |(m : ℚ)| := abs_pos.mpr (by exact_mod_cast h0)
      have hlt : |(m : ℚ)| < ((2 : ℕ) : ℚ) ^ (24 : ℤ) := by
        have : ((|m| : ℤ) : ℚ) < ((2 ^ 24 : ℤ) : ℚ) := by exact_mod_cast h
        push_cast at this
        norm_num
        linarith
      have := (Int.lt_zpow_iff_log_lt (b := 2) (by norm_num) hpos).mp hlt
      omega
  unfold mmath.roundToFloat
  set e : ℤ := Max.max (Int.log 2 |(m : ℚ)|) (-126) with he
  have he1 : e ≤ 23 := max_le hlog (by norm_num)
  have he2 : -126 ≤ e := le_max_right _ _
  obtain ⟨k, hk⟩ : ∃ k : ℕ, e - 23 = -(k : ℤ) := ⟨(23 - e).toNat, by omega⟩
  have hu : (2 : ℚ) ^ (e - 23) = ((2 : ℚ) ^ k)⁻¹ := by
    rw [hk, zpow_neg, zpow_natCast]
  have hscaled : (m : ℚ) / (2 : ℚ) ^ (e - 23) = ((m * 2 ^ k : ℤ) : ℚ) := by
    rw [hu]
    push_cast
    field_simp
  have hback : ((m * 2 ^ k : ℤ) : ℚ) * (2 : ℚ) ^ (e - 23) = (m : ℚ) := by
    rw [hu]
    push_cast
    field_simp
  simp only [hscaled, roundHalfEven_intCast, hback]
  have hlt : |(m : ℚ)| < 2 ^ 128 := by
    have : ((|m| : ℤ) : ℚ) < ((2 ^ 24 : ℤ) : ℚ) := by exact_mod_cast h
    push_cast at this
    linarith [show (2 : ℚ) ^ 24 < 2 ^ 128 by norm_num]
  rw [if_pos hlt]

/-- Rounding to a float does not take a value of at least 2 below 2. -/
theorem roundToFloat_ge_two (y : ℚ) (h2 : 2 ≤ y) (hy : y < 2 ^ 127) :
    ∃ f : ℚ, mmath.roundToFloat y = some f ∧ 2 ≤ f := by
  have hpos : 0 < y := by linarith
  have habs : |y| = y := abs_of_pos hpos
  unfold mmath.roundToFloat
  rw [habs]
  have hlog1 : 1 ≤ Int.log 2 y := by
    apply (Int.zpow_le_iff_le_log (b := 2) (by norm_num) hpos).mp
    norm_num
    exact h2
  have he : Max.max (Int.log 2 y) (-126) = Int.log 2 y := max_eq_left (by omega)
  rw [he]
  set e : ℤ := Int.log 2 y with hedef
  have hle : (2 : ℚ) ^ e ≤ y := by
    have := Int.zpow_log_le_self (b := 2) (by norm_num) hpos
    exact_mod_cast this
  set u : ℚ := (2 : ℚ) ^ (e - 23) with hu
  have hupos : 0 < u := by positivity
  have hu23 : (2 : ℚ) ^ 23 * u = 2 ^ e := by
    rw [hu, ← zpow_natCast (2 : ℚ) 23, ← zpow_add₀ (by norm_num)]
    congr 1
    push_cast
    ring
  have hn : ((2 ^ 23 : ℤ) : ℚ) ≤ y / u := by
    rw [le_div_iff₀ hupos]
    have h5 : ((2 ^ 23 : ℤ) : ℚ) * u = 2 ^ e := by
      rw [← hu23]
      norm_num
    rw [h5]
    exact hle
  have hfl : (2 ^ 23 : ℤ) ≤ ⌊y / u⌋ := Int.le_floor.mpr hn
  have hr1 : (2 ^ 23 : ℤ) ≤ mmath.roundHalfEven (y / u) :=
    le_trans hfl (floor_le_roundHalfEven _)
  have hr2 : mmath.roundHalfEven (y / u) ≤ ⌊y / u⌋ + 1 := roundHalfEven_le_floor_add_one _
  have hr1q : (2 : ℚ) ^ 23 ≤ (mmath.roundHalfEven (y / u) : ℚ) := by exact_mod_cast hr1
  have hr2q : (mmath.roundHalfEven (y / u) : ℚ) ≤ y / u + 1 := by
    have h3 : (mmath.roundHalfEven (y / u) : ℚ) ≤ ((⌊y / u⌋ + 1 : ℤ) : ℚ) := by
      exact_mod_cast hr2
    push_cast at h3
    linarith [Int.floor_le (y / u)]
  have h2e : (2 : ℚ) ≤ 2 ^ e := by
    have : (2 : ℚ) ^ (1 : ℤ) ≤ 2 ^ e := zpow_le_zpow_right₀ (by norm_num) hlog1
    simpa using this
  have hlow : (2 : ℚ) ≤ (mmath.roundHalfEven (y / u) : ℚ) * u := by
    calc (2 : ℚ) ≤ 2 ^ e := h2e
      _ = 2 ^ 23 * u := hu23.symm
      _ ≤ (mmath.roundHalfEven (y / u) : ℚ) * u := mul_le_mul_of_nonneg_right hr1q hupos.le
  have hule : u ≤ y := by
    have : u ≤ 2 ^ 23 * u := by nlinarith
    linarith
  have hhigh : (mmath.roundHalfEven (y / u) : ℚ) * u ≤ 2 * y := by
    calc (mmath.roundHalfEven (y / u) : ℚ) * u ≤ (y / u + 1) * u :=
          mul_le_mul_of_nonneg_right hr2q hupos.le
      _ = y + u := by field_simp
      _ ≤ 2 * y := by linarith
  refine ⟨_, ?_, hlow⟩
  have hlt : |(mmath.roundHalfEven (y / u) : ℚ) * u| < 2 ^ 128 := by
    rw [abs_of_pos (by linarith)]
    calc (mmath.roundHalfEven (y / u) : ℚ) * u ≤ 2 * y := hhigh
      _ < 2 * 2 ^ 127 := by linarith
      _ = 2 ^ 128 := by norm_num
  simp only
  rw [if_pos hlt]

/-! ## Rounding of negative arguments in single precision -/

theorem roundToFloat_neg_odd : mmath.roundToFloat (-33554431) = some (-33554432) := by
  have hlog : Int.log 2 |(-33554431 : ℚ)| = 24 := by
    have habs : |(-33554431 : ℚ)| = 33554431 := by norm_num [abs_of_neg]
    rw [habs]
    exact int_log_two_eq (by norm_num) (by norm_num) (by norm_num)
  have hfl : ⌊(-(33554431 / 2) : ℚ)⌋ = -16777216 := by
    rw [Int.floor_eq_iff]
    norm_num
  have hr : mmath.roundHalfEven (-(33554431 / 2)) = -16777216 := by
    unfold mmath.roundHalfEven
    rw [hfl]
    norm_num
  unfold mmath.roundToFloat
  rw [hlog]
  norm_num [hr]

/-- C19, counterexample: `-33554432` is the float of pattern `0xCC000000`; there
`trunc` returns `-33554432`, the rounded sum of `ceil` is `-33554432` again,
and `round` returns its argument: neither `trunc x + 1` nor a value above
`x`. -/
theorem f32_round_counterexample :
    mmath.floatOfBits 0xCC000000 = some (-33554432) ∧
    mmath.trunc (-33554432) = some (-33554432) ∧
    mmath.f32.ceil (-33554432) = some (-33554432) ∧
    mmath.f32.round (-33554432) = some (-33554432) := by
  have ht : mmath.truncToInt (-33554432) = -33554432 := by
    exact_mod_cast truncToInt_intCast (-33554432)
  have hfl : mmath.floor (-33554432) = some (-33554432) := by
    rw [floor_eq_truncToInt _ (by norm_num [abs_lt]), ht]
    norm_num
  have hceil : mmath.f32.ceil (-33554432) = some (-33554432) := by
    unfold mmath.f32.ceil
    rw [hfl, Option.some_bind]
    norm_num [roundToFloat_neg_odd]
  obtain ⟨f, hf, hf2⟩ := roundToFloat_ge_two (mmath.abs (-33554432) - -33554432)
    (by norm_num [mmath.abs]) (by norm_num [mmath.abs])
  refine ⟨?_, hfl, hceil, ?_⟩
  · unfold mmath.floatOfBits
    norm_num [Nat.shiftRight_eq_div_pow]
  · unfold mmath.f32.round mmath.f32.frac mmath.trunc
    rw [hfl, Option.some_bind, hf, Option.some_bind, if_pos (by linarith), hceil]

/-- C19, amended: for every `x <= -1` above `-2^64`, in single precision
`frac x >= 2`, so `round x` takes the branch of `ceil` and returns `ceil x`;
when moreover `-2^24 <= x`, the sum of `ceil` is exact and `round x` is
`trunc x + 1`, which is above `x`, and when `x` is not an integer `trunc x` is
an integer strictly nearer to `x` than `round x`. -/
theorem f32_round_le_neg_one (x : ℚ) (h1 : x ≤ -1) (hx : -(2 ^ 64) < x) :
    ∃ t : ℤ, ∃ f : ℚ, mmath.trunc x = some (t : ℚ) ∧ mmath.f32.frac x = some f ∧ 2 ≤ f ∧
      mmath.f32.round x = mmath.f32.ceil x ∧
      (-(2 ^ 24) ≤ x →
        mmath.f32.round x = some ((t : ℚ) + 1) ∧ x < (t : ℚ) + 1 ∧
        ((∀ n : ℤ, (n : ℚ) ≠ x) → |(t : ℚ) - x| < |((t : ℚ) + 1) - x|)) := by
  have hneg : x < 0 := by linarith
  have hax : |x| < 2 ^ 64 := by
    rw [abs_of_neg hneg]
    linarith
  have hfl := floor_eq_truncToInt x hax
  have ht1 : mmath.truncToInt x ≤ -1 := truncToInt_le_neg_one h1
  have hxt : x ≤ (mmath.truncToInt x : ℚ) := by
    rw [truncToInt_of_nonpos hneg.le]
    exact Int.le_ceil x
  set t : ℤ := mmath.truncToInt x with ht
  have ht1q : (t : ℚ) ≤ -1 := by exact_mod_cast ht1
  obtain ⟨f, hf, hf2⟩ := roundToFloat_ge_two (mmath.abs x - t)
    (by rw [mmath_abs_eq, abs_of_neg hneg]; linarith)
    (by
      rw [mmath_abs_eq, abs_of_neg hneg]
      linarith [show (2 : ℚ) ^ 64 + 2 ^ 64 < 2 ^ 127 by norm_num])
  have hfrac : mmath.f32.frac x = some f := by
    unfold mmath.f32.frac mmath.trunc
    rw [hfl, Option.some_bind, hf]
  have hround : mmath.f32.round x = mmath.f32.ceil x := by
    unfold mmath.f32.round
    rw [hfrac, Option.some_bind, if_pos (by linarith)]
  refine ⟨t, f, hfl, hfrac, hf2, hround, ?_⟩
  intro hx24
  have ht2 : -(2 ^ 24) ≤ t := by
    have h3 : ((-(2 ^ 24) : ℤ) : ℚ) ≤ (t : ℚ) := by
      push_cast
      linarith
    exact_mod_cast h3
  have hceil : mmath.f32.ceil x = some ((t : ℚ) + 1) := by
    unfold mmath.f32.ceil
    rw [hfl, Option.some_bind]
    have h5 := roundToFloat_intCast (t + 1) (by rw [abs_lt]; constructor <;> omega)
    push_cast at h5
    exact h5
  refine ⟨by rw [hround, hceil], by linarith, ?_⟩
  intro hni
  have hlt : x < (t : ℚ) := lt_of_le_of_ne hxt (fun h => hni t h.symm)
  rw [abs_of_pos (by linarith), abs_of_pos (by linarith)]
  linarith

/-- The hypotheses of `f32_round_le_neg_one` hold at `x = -37/10`, where
`round` returns `trunc x + 1`. -/
theorem f32_round_le_neg_one_witness :
    (-37 / 10 : ℚ) ≤ -1 ∧ -(2 ^ 64) < (-37 / 10 : ℚ) ∧ -(2 ^ 24) ≤ (-37 / 10 : ℚ) ∧
    ∃ t : ℤ, ∃ f : ℚ, mmath.trunc (-37 / 10) = some (t : ℚ) ∧
      mmath.f32.frac (-37 / 10) = some f ∧ 2 ≤ f ∧
      mmath.f32.round (-37 / 10) = mmath.f32.ceil (-37 / 10) ∧
      (-(2 ^ 24) ≤ (-37 / 10 : ℚ) →
        mmath.f32.round (-37 / 10) = some ((t : ℚ) + 1) ∧ (-37 / 10 : ℚ) < (t : ℚ) + 1 ∧
        ((∀ n : ℤ, (n : ℚ) ≠ -37 / 10) →
          |(t : ℚ) - -37 / 10| < |((t : ℚ) + 1) - -37 / 10|)) :=
  ⟨by norm_num, by norm_num, by norm_num,
    f32_round_le_neg_one (-37 / 10) (by norm_num) (by norm_num)⟩

/-! ## The checked build of `close` -/

/-- The two forms of the precondition agree: the value of a pattern that is
finite and normalized has its magnitude in the normalized range. -/
theorem isNormalizedValue_of_bits (b : ℕ) (h : mmath.isFiniteNormalized b = true) :
    ∃ v : ℚ, mmath.floatOfBits b = some v ∧ mmath.isNormalizedValue v = true := by
  unfold mmath.isFiniteNormalized at h
  rw [decide_eq_true_eq] at h
  obtain ⟨h1, h2⟩ := h
  unfold mmath.floatOfBits
  set e : ℕ := b >>> 23 % 256 with he
  set m : ℕ := b % 2 ^ 23 with hm
  have hm1 : m < 2 ^ 23 := Nat.mod_lt _ (by norm_num)
  have he255 : e ≠ 255 := by omega
  have he0 : e ≠ 0 := by omega
  simp only [he255, he0, if_false]
  set mag : ℚ := ((2 ^ 23 + m : ℕ) : ℚ) * 2 ^ ((e : ℤ) - 150) with hmag
  have hpow : (0 : ℚ) < 2 ^ ((e : ℤ) - 150) := by positivity
  have hlow : (2 : ℚ) ^ (-126 : ℤ) ≤ mag := by
    have h3 : (2 : ℚ) ^ (-149 : ℤ) ≤ 2 ^ ((e : ℤ) - 150) :=
      zpow_le_zpow_right₀ (by norm_num) (by omega)
    have h4 : (2 : ℚ) ^ 23 ≤ ((2 ^ 23 + m : ℕ) : ℚ) := by
      push_cast
      linarith [show (0 : ℚ) ≤ (m : ℚ) from Nat.cast_nonneg m]
    calc (2 : ℚ) ^ (-126 : ℤ) = 2 ^ 23 * 2 ^ (-149 : ℤ) := by
          rw [← zpow_natCast (2 : ℚ) 23, ← zpow_add₀ (by norm_num)]
          norm_num
      _ ≤ 2 ^ 23 * 2 ^ ((e : ℤ) - 150) := mul_le_mul_of_nonneg_left h3 (by positivity)
      _ ≤ mag := mul_le_mul_of_nonneg_right h4 hpow.le
  have hhigh : mag < 2 ^ 128 := by
    have h3 : (2 : ℚ) ^ ((e : ℤ) - 150) ≤ 2 ^ (104 : ℤ) :=
      zpow_le_zpow_right₀ (by norm_num) (by omega)
    have h4 : ((2 ^ 23 + m : ℕ) : ℚ) < 2 ^ 24 := by
      have : 2 ^ 23 + m < 2 ^ 24 := by omega
      exact_mod_cast this
    calc mag < 2 ^ 24 * 2 ^ ((e : ℤ) - 150) := mul_lt_mul_of_pos_right h4 hpow
      _ ≤ 2 ^ 24 * 2 ^ (104 : ℤ) := mul_le_mul_of_nonneg_left h3 (by positivity)
      _ = 2 ^ 128 := by norm_num
  have hpos : 0 < mag := lt_of_lt_of_le (by positivity) hlow
  refine ⟨_, rfl, ?_⟩
  unfold mmath.isNormalizedValue
  rw [decide_eq_true_eq]
  split_ifs
  · rw [abs_neg, abs_of_pos hpos]
    exact ⟨hlow, hhigh⟩
  · rw [abs_of_pos hpos]
    exact ⟨hlow, hhigh⟩

